import Mathlib

/-!
Verification of the headliner training core.

This file gives a shallow embedding, in Lean, of the training-pipeline code of
the headliner repository and proves properties of it:

* `Trainer._create_tokenizers` (trainer.py lines 236-255): vocabulary building
  with token counting, top-k selection, reserved tokens and keras-style
  tokenizer fitting;
* `Trainer._init_model` / the initialization branch of `Trainer.train`
  (trainer.py lines 130-134 and 187-219);
* the training loop of `Trainer.train` (trainer.py lines 164-185) including
  the per-epoch callback block and the zero-batch guard;
* the callback resolution block of `Trainer.train` (trainer.py lines 144-162);
* `EvaluationCallback.on_epoch_end` (callbacks/evaluation_callback.py
  lines 27-44).

Python strings are modelled as lists of characters (`PyStr`), Python dicts as
insertion-ordered association lists with unique keys, `collections.Counter` as
an insertion-ordered association list of counts, and floats as rationals.
-/

/-- Python strings are modelled as their list of characters.  Comparison of
`List Char` is lexicographic by code point, matching Python string
comparison. -/
abbrev PyStr := List Char

/-- Whitespace test used by Python `str.split()`. -/
def isWs (c : Char) : Bool := c.isWhitespace

/-- Accumulator-based worker for `splitWs`: `acc` holds the (reversed)
characters of the token currently being read. -/
def splitWsAux : List Char → List Char → List (List Char)
  | [], acc => if acc = [] then [] else [acc.reverse]
  | c :: rest, acc =>
    if isWs c then
      if acc = [] then splitWsAux rest [] else acc.reverse :: splitWsAux rest []
    else splitWsAux rest (c :: acc)

/-- Python `str.split()` (no argument): split on runs of whitespace, dropping
empty pieces. -/
def splitWs (s : PyStr) : List PyStr := splitWsAux s []

/-- Keys of an association list. -/
def keysOf {K V : Type} (d : List (K × V)) : List K := d.map Prod.fst

/-- Python dict lookup: first (and, keys being unique, only) binding wins. -/
def lookupKey {K V : Type} [DecidableEq K] : List (K × V) → K → Option V
  | [], _ => none
  | p :: rest, k => if p.1 = k then some p.2 else lookupKey rest k

/-- Python dict assignment `d[k] = v`: update in place when the key exists
(keeping its position), append otherwise. -/
def dictSet {K V : Type} [DecidableEq K] (d : List (K × V)) (k : K) (v : V) :
    List (K × V) :=
  if d.any (fun p => p.1 = k) then
    d.map (fun p => if p.1 = k then (p.1, v) else p)
  else d ++ [(k, v)]

/-- Python `dict(zip(keys, vals))`: repeated assignment, so a later binding of
the same key overrides the earlier value while keeping the earlier position. -/
def dictOfPairs {K V : Type} [DecidableEq K] (ps : List (K × V)) : List (K × V) :=
  ps.foldl (fun d p => dictSet d p.1 p.2) []

/-- One `Counter` update with a single token: increment when present, append
a new entry with count 1 otherwise (`collections.Counter` keeps first-seen
insertion order). -/
def counterAdd (c : List (PyStr × Nat)) (t : PyStr) : List (PyStr × Nat) :=
  if c.any (fun p => p.1 = t) then
    c.map (fun p => if p.1 = t then (p.1, p.2 + 1) else p)
  else c ++ [(t, 1)]

/-- `collections.Counter` built over a list of tokens. -/
def counterOf (tokens : List PyStr) : List (PyStr × Nat) :=
  tokens.foldl counterAdd []

/-- Descending-by-count comparison used for `Counter.most_common`; a stable
sort under this relation keeps first-seen order among equal counts, which is
what `heapq.nlargest` (and hence `most_common(n)`) guarantees. -/
def byCountDesc (a b : PyStr × Nat) : Prop := b.2 ≤ a.2

instance : DecidableRel byCountDesc := fun a b => Nat.decLe b.2 a.2

/-- `Counter.most_common(n)`: the `n` entries of largest count, ties broken by
first-seen order (stable descending sort, then take `n`). -/
def mostCommon (n : Nat) (c : List (PyStr × Nat)) : List (PyStr × Nat) :=
  (c.insertionSort byCountDesc).take n

/-- Python set insertion, modelled on an insertion-ordered duplicate-free
list. -/
def insertIfAbsent (l : List PyStr) (t : PyStr) : List PyStr :=
  if t ∈ l then l else l ++ [t]

/-- `START_TOKEN` from trainer.py line 21. -/
def startToken : PyStr := "<start>".toList

/-- `END_TOKEN` from trainer.py line 22. -/
def endToken : PyStr := "<end>".toList

/-- `OOV_TOKEN` from trainer.py line 23. -/
def oovToken : PyStr := "<unk>".toList

/-- The token set of one side in `_create_tokenizers` (trainer.py lines
247-250): names of the `max_vocab_size` most common tokens, then
`update({START_TOKEN, END_TOKEN})`.  The list records the canonical insertion
order of the Python set's contents; the set itself is unordered, which is why
definitions below that consume it accept any permutation. -/
def tokenListOf (counter : List (PyStr × Nat)) (maxVocabSize : Nat) : List PyStr :=
  insertIfAbsent
    (insertIfAbsent (((mostCommon maxVocabSize counter).map Prod.fst).foldl insertIfAbsent [])
      startToken)
    endToken

/-- The per-side token counter of `_create_tokenizers` (trainer.py lines
241-246): counts of all whitespace-split tokens of the given texts. -/
def sideCounter (texts : List PyStr) : List (PyStr × Nat) :=
  counterOf (texts.flatMap splitWs)

/-- A fitted keras tokenizer is characterized by its `word_index` dict. -/
structure TokenizerModel where
  wordIndex : List (PyStr × Nat)

deriving DecidableEq, Repr

/-- `keras_preprocessing.text.Tokenizer.fit_on_texts` with the arguments used
in trainer.py lines 251-252 (`oov_token=OOV_TOKEN`, `filters=''`,
`lower=False`): count the whitespace-split tokens of all texts, sort the
entries by descending count (a stable sort, so equal counts keep first-seen
order), put the out-of-vocabulary token first, and assign ids from 1 via
`dict(zip(sorted_voc, range(1, len(sorted_voc) + 1)))`; id 0 stays reserved
for padding. -/
def fitOnTexts (texts : List PyStr) : TokenizerModel :=
  let wcounts := counterOf (texts.flatMap splitWs)
  let sortedVoc := oovToken :: (wcounts.insertionSort byCountDesc).map Prod.fst
  ⟨dictOfPairs (sortedVoc.zip (List.range' 1 sortedVoc.length))⟩

/-- Errors surfaced by the embedded trainer code. -/
inductive TrainError where
  | emptyCorpus
  | zeroBatches
  | unboundCallbacks

deriving DecidableEq, Repr

/-- `Trainer._create_tokenizers` (trainer.py lines 236-255), parametrized by
the enumeration order in which `list(...)` reads each side's Python token set:
on an empty corpus the opening `zip(*train_data_preprocessed)` unpacking
raises (the spec's `EmptyCorpusError`); otherwise each side's token set is
listed, sorted, and fitted into a tokenizer. -/
def createTokenizersWith (corpus : List (PyStr × PyStr)) (maxVocabSize : Nat)
    (enumEnc enumDec : List PyStr) : Except TrainError (TokenizerModel × TokenizerModel) :=
  if corpus = [] then .error .emptyCorpus
  else
    let _ := maxVocabSize
    .ok (fitOnTexts (enumEnc.insertionSort (· ≤ ·)),
         fitOnTexts (enumDec.insertionSort (· ≤ ·)))

/-- `Trainer._create_tokenizers` with the canonical (insertion-order)
enumeration of each token set. -/
def createTokenizers (corpus : List (PyStr × PyStr)) (maxVocabSize : Nat) :
    Except TrainError (TokenizerModel × TokenizerModel) :=
  createTokenizersWith corpus maxVocabSize
    (tokenListOf (sideCounter (corpus.map Prod.fst)) maxVocabSize)
    (tokenListOf (sideCounter (corpus.map Prod.snd)) maxVocabSize)

/-- The attachable state of a summarizer (`summarizer.preprocessor` and
`summarizer.vectorizer`, both nullable per the model contract).  The
vectorizer built by `_init_model` wraps the two fitted tokenizers
(`Vectorizer(tokenizer_encoder, tokenizer_decoder)`, trainer.py line 201);
a caller-supplied one is abstract, hence the sum. -/
structure SummarizerState (P V : Type) where
  preprocessor : Option P
  vectorizer : Option (V ⊕ (TokenizerModel × TokenizerModel))

deriving DecidableEq

/-- `Trainer._init_model` (trainer.py lines 187-219).  When the trainer holds
a custom vectorizer it is attached directly; otherwise the training data is
preprocessed, tokenizers are built by `_create_tokenizers`, and the resulting
vectorizer is attached.  `Summarizer.init_model` itself is outside the core
(model/summarizer.py); per the spec it attaches the preprocessor and
vectorizer to the model. -/
def initModelStep {P V : Type} (trainerPre : P)
    (trainerVec : Option V) (preprocFn : PyStr × PyStr → PyStr × PyStr)
    (trainData : List (PyStr × PyStr)) (maxVocabSize : Nat) :
    Except TrainError (SummarizerState P V) :=
  match trainerVec with
  | some v => .ok ⟨some trainerPre, some (Sum.inl v)⟩
  | none =>
    match createTokenizers (trainData.map preprocFn) maxVocabSize with
    | .error e => .error e
    | .ok toks => .ok ⟨some trainerPre, some (Sum.inr toks)⟩

/-- The initialization branch at the top of `Trainer.train` (trainer.py lines
130-134): `_init_model` runs exactly when `summarizer.preprocessor is None or
summarizer.vectorizer is None`; the returned flag records whether it ran. -/
def trainInitPhase {P V : Type} (trainerPre : P) (trainerVec : Option V)
    (preprocFn : PyStr × PyStr → PyStr × PyStr) (trainData : List (PyStr × PyStr))
    (maxVocabSize : Nat) (s : SummarizerState P V) :
    Except TrainError (SummarizerState P V × Bool) :=
  if s.preprocessor.isNone || s.vectorizer.isNone then
    (initModelStep trainerPre trainerVec preprocFn trainData maxVocabSize).map
      (fun s1 => (s1, true))
  else .ok (s, false)

/-- The callback resolution block of `Trainer.train` (trainer.py lines
144-162): a caller-supplied list is copied; otherwise, when validation data is
present, the default callback list is used; when neither is present no
assignment to `train_callbacks` happens at all, modelled as `none`. -/
def resolveCallbacks {C V : Type} (callbacks : Option (List C)) (valData : Option V)
    (defaults : List C) : Option (List C) :=
  match callbacks with
  | some cs => some cs
  | none =>
    match valData with
    | some _ => some defaults
    | none => none

/-- The mutable counters and logs of the training loop (trainer.py lines
164-165); the logs mapping is kept abstract. -/
structure TrainState (L : Type) where
  epochCount : Nat
  batchCount : Nat
  logs : L

deriving DecidableEq

/-- Observable actions of the training loop, recorded in order: a training
step on the batch with the given (cumulative) number, a call of the callback
at the given list position receiving the given `epoch_count`, the model save,
and the `epoch_count` increment. -/
inductive TrainEvent where
  | step : Nat → TrainEvent
  | callbackCall : Nat → Nat → TrainEvent
  | saveModel : TrainEvent
  | epochInc : TrainEvent

deriving DecidableEq, Repr

/-- Result of processing part of one pass over the dataset. -/
inductive StepOut (L : Type) where
  | ok : TrainState L → List TrainEvent → StepOut L
  | err : TrainError → List TrainEvent → StepOut L

deriving DecidableEq

/-- Sequential invocation of the registered callbacks on the logs (each
`callback.on_epoch_end(epoch_count, logs=logs)` may mutate the logs,
trainer.py lines 179-180). -/
def applyCallbacks {L : Type} (cbs : List (Nat → L → L)) (epoch : Nat) (l : L) : L :=
  cbs.foldl (fun acc c => c epoch acc) l

/-- The callback-call events of one epoch block, in list order. -/
def callbackEvents (n epoch : Nat) : List TrainEvent :=
  (List.range n).map (fun i => TrainEvent.callbackCall i epoch)

/-- The body of the inner `for` loop of `Trainer.train` (trainer.py lines
169-182) for one pulled batch: increment `batch_count`, run the training step
(updating the logs), and if `batch_count` is a multiple of `steps_per_epoch`
run every callback in order, save the model and increment `epoch_count`.
`cbs = none` models the case in which `train_callbacks` was never assigned,
where reaching the callback block raises Python's unbound-local error. -/
def processBatch {L : Type} (steps : Nat) (cbs : Option (List (Nat → L → L)))
    (trainStep : Nat → L → L) (s : TrainState L) : StepOut L :=
  let b := s.batchCount + 1
  let l1 := trainStep b s.logs
  if b % steps = 0 then
    match cbs with
    | none => .err .unboundCallbacks [TrainEvent.step b]
    | some fs =>
      .ok ⟨s.epochCount + 1, b, applyCallbacks fs s.epochCount l1⟩
        (TrainEvent.step b :: callbackEvents fs.length s.epochCount
          ++ [TrainEvent.saveModel, TrainEvent.epochInc])
  else .ok ⟨s.epochCount, b, l1⟩ [TrainEvent.step b]

/-- The inner `for` loop of `Trainer.train` over one full pass yielding `k`
batches. -/
def runPass {L : Type} (steps : Nat) (cbs : Option (List (Nat → L → L)))
    (trainStep : Nat → L → L) : Nat → TrainState L → StepOut L
  | 0, s => .ok s []
  | k + 1, s =>
    match processBatch steps cbs trainStep s with
    | .err e evs => .err e evs
    | .ok s1 evs =>
      match runPass steps cbs trainStep k s1 with
      | .ok s2 evs2 => .ok s2 (evs ++ evs2)
      | .err e evs2 => .err e (evs ++ evs2)

/-- Outcome of the `while` loop of `Trainer.train` under a fuel bound on the
number of executed passes: the loop exited normally, raised, or was still
running when the fuel ran out. -/
inductive RunOutcome (L : Type) where
  | finished : TrainState L → List TrainEvent → RunOutcome L
  | failed : TrainError → List TrainEvent → RunOutcome L
  | fuelOut : TrainState L → List TrainEvent → RunOutcome L

deriving DecidableEq

/-- The `while epoch_count < num_epochs` loop of `Trainer.train` (trainer.py
lines 166-185).  `passes i` is the number of batches the dataset generator
yields on its `i`-th full pass; after each pass the loop raises the
`ValueError` ("zero batches") exactly when the cumulative `batch_count` is
still zero. -/
def trainLoop {L : Type} (steps numEpochs : Nat) (cbs : Option (List (Nat → L → L)))
    (trainStep : Nat → L → L) (passes : Nat → Nat) :
    Nat → Nat → TrainState L → List TrainEvent → RunOutcome L
  | 0, _, s, acc => .fuelOut s acc
  | fuel + 1, passIdx, s, acc =>
    if s.epochCount < numEpochs then
      match runPass steps cbs trainStep (passes passIdx) s with
      | .err e evs => .failed e (acc ++ evs)
      | .ok s1 evs =>
        if s1.batchCount = 0 then .failed .zeroBatches (acc ++ evs)
        else trainLoop steps numEpochs cbs trainStep passes fuel (passIdx + 1) s1 (acc ++ evs)
    else .finished s acc

/-- A training run (with the given configuration, from the given start state)
never fails and never terminates: however many passes are allowed, the loop is
still running. -/
def runsForever {L : Type} (steps numEpochs : Nat) (cbs : Option (List (Nat → L → L)))
    (trainStep : Nat → L → L) (passes : Nat → Nat) (s : TrainState L) : Prop :=
  ∀ fuel, ∃ s1 evs, trainLoop steps numEpochs cbs trainStep passes fuel 0 s [] =
    RunOutcome.fuelOut s1 evs

/-- A training run terminates normally, with `num_epochs ≤ epoch_count` at the
final `while` check. -/
def terminatesFrom {L : Type} (steps numEpochs : Nat) (cbs : Option (List (Nat → L → L)))
    (trainStep : Nat → L → L) (passes : Nat → Nat) (s : TrainState L) : Prop :=
  ∃ fuel s1 evs, trainLoop steps numEpochs cbs trainStep passes fuel 0 s [] =
    RunOutcome.finished s1 evs ∧ numEpochs ≤ s1.epochCount

/-- `EvaluationCallback` (callbacks/evaluation_callback.py): the summarizer's
`predict_vectors` and the scorers are abstract functions into an abstract
prediction type; scores are rationals (Python floats). -/
structure EvalCallbackModel (Pred : Type) where
  predictVectors : PyStr → PyStr → Pred
  scorers : List (PyStr × (Pred → ℚ))
  valData : List (PyStr × PyStr)

/-- `val_scores[score_name] += score`: in-place update of an existing key. -/
def dictAddQ (d : List (PyStr × ℚ)) (k : PyStr) (x : ℚ) : List (PyStr × ℚ) :=
  d.map (fun p => if p.1 = k then (p.1, p.2 + x) else p)

/-- The accumulation loop of `EvaluationCallback.on_epoch_end`
(evaluation_callback.py lines 30-42): starting from every score at `0.`,
count the validation pairs and add each scorer's score on each prediction. -/
def evalAccumulate {Pred : Type} (cb : EvalCallbackModel Pred) : Nat × List (PyStr × ℚ) :=
  cb.valData.foldl
    (fun acc d =>
      let p := cb.predictVectors d.1 d.2
      (acc.1 + 1, cb.scorers.foldl (fun vs sc => dictAddQ vs sc.1 (sc.2 p)) acc.2))
    (0, cb.scorers.map (fun sc => (sc.1, (0 : ℚ))))

/-- The single error the embedded callback can raise. -/
inductive EvalError where
  | zeroDivision

deriving DecidableEq, Repr

/-- The final loop of `EvaluationCallback.on_epoch_end` (evaluation_callback.py
lines 43-44): write `score / count_val` into the logs for every accumulated
score, raising Python's division-by-zero error when `count_val` is zero (the
loop body does not run at all when there are no scorers). -/
def evalWriteLogs : List (PyStr × ℚ) → Nat → List (PyStr × ℚ) →
    Except EvalError (List (PyStr × ℚ))
  | [], _, logs => .ok logs
  | (n, s) :: rest, c, logs =>
    if c = 0 then .error .zeroDivision
    else evalWriteLogs rest c (dictSet logs n (s / (c : ℚ)))

/-- `EvaluationCallback.on_epoch_end` (evaluation_callback.py lines 27-44). -/
def onEpochEnd {Pred : Type} (cb : EvalCallbackModel Pred) (logs : List (PyStr × ℚ)) :
    Except EvalError (List (PyStr × ℚ)) :=
  let a := evalAccumulate cb
  evalWriteLogs a.2 a.1 logs

/-- The training-step events of a run segment of `k` batches starting from
cumulative batch count `c`. -/
def stepEvents (c k : Nat) : List TrainEvent :=
  (List.range k).map (fun i => TrainEvent.step (c + i + 1))

/-- The logs after training on batches `c+1 … c+k`. -/
def logsFold {L : Type} (trainStep : Nat → L → L) (c k : Nat) (l : L) : L :=
  (List.range k).foldl (fun lg i => trainStep (c + i + 1) lg) l

deriving instance DecidableEq for Except

/-- The count a `Counter` association list holds for a token (`c[t]`,
0 when absent). -/
def countOf (c : List (PyStr × Nat)) (t : PyStr) : Nat := (lookupKey c t).getD 0

instance : IsTotal (PyStr × Nat) byCountDesc := ⟨fun a b => le_total b.2 a.2⟩

instance : IsTrans (PyStr × Nat) byCountDesc :=
  ⟨fun _ _ _ hab hbc => le_trans hbc hab⟩

/-- Specification-level characterization of one side of vocabulary building:
the counter holds whitespace-token frequencies of that side's texts, the
selection keeps at most `max_vocab_size` tokens and only most-frequent ones,
the token set is exactly the selection united with the reserved start and end
tokens, and the fitted tokenizer assigns id `i + 2` to the `i`-th token of the
lexicographically sorted token list (ids 0 and 1 staying reserved for padding
and the out-of-vocabulary token). -/
def sideCharacterized (texts : List PyStr) (m : Nat) (tok : TokenizerModel) : Prop :=
  (∀ t, countOf (sideCounter texts) t = (texts.flatMap splitWs).count t)
  ∧ ((mostCommon m (sideCounter texts)).map Prod.fst).length ≤ m
  ∧ (∀ a ∈ mostCommon m (sideCounter texts), ∀ b ∈ sideCounter texts,
      b.1 ∉ (mostCommon m (sideCounter texts)).map Prod.fst → b.2 ≤ a.2)
  ∧ (∀ t, t ∈ tokenListOf (sideCounter texts) m ↔
      (t ∈ (mostCommon m (sideCounter texts)).map Prod.fst
        ∨ t = startToken ∨ t = endToken))
  ∧ List.Sorted (· ≤ ·) ((tokenListOf (sideCounter texts) m).insertionSort (· ≤ ·))
  ∧ (∀ (i : Nat) (hi : i < ((tokenListOf (sideCounter texts) m).insertionSort (· ≤ ·)).length),
      lookupKey tok.wordIndex (((tokenListOf (sideCounter texts) m).insertionSort (· ≤ ·))[i])
        = some (i + 2))

/-- The property claimed of `_create_tokenizers` on a non-empty corpus: it
succeeds and each side's tokenizer is characterized by `sideCharacterized`,
independently from that side's texts alone. -/
def vocabClaimHolds (corpus : List (PyStr × PyStr)) (m : Nat) : Prop :=
  ∃ encT decT, createTokenizers corpus m = .ok (encT, decT)
    ∧ sideCharacterized (corpus.map Prod.fst) m encT
    ∧ sideCharacterized (corpus.map Prod.snd) m decT

/-- Modelled from the spec: the Vectorizer (headliner/preprocessing/
vectorizer.py is not among the examined sources) maps each whitespace token of
a text to its id in the given vocabulary, substituting the out-of-vocabulary
id for unknown tokens, and reads the vocabulary without mutating it. -/
def vectorizeIds (tok : TokenizerModel) (text : PyStr) : List Nat :=
  (splitWs text).map (fun t =>
    match lookupKey tok.wordIndex t with
    | some i => i
    | none => (lookupKey tok.wordIndex oovToken).getD 0)

/-- Modelled from the spec: one vectorization step of the downstream pipeline
in state-passing form; it returns the id sequences together with the (unchanged)
tokenizers, which is the shape in which vocabulary immutability is stated. -/
def vectorizeApply (encT decT : TokenizerModel) (pair : PyStr × PyStr) :
    (List Nat × List Nat) × TokenizerModel × TokenizerModel :=
  ((vectorizeIds encT pair.1, vectorizeIds decT pair.2), encT, decT)

/-- The property claimed of each built vocabulary: its size is bounded by
`max_vocab_size` plus the four reserved tokens (start, end, out-of-vocabulary,
padding), and later pipeline stages leave it unchanged. -/
def vocabSizeClaim (m : Nat) (encT decT : TokenizerModel) : Prop :=
  encT.wordIndex.length ≤ m + 4 ∧ decT.wordIndex.length ≤ m + 4
  ∧ ∀ (pair : PyStr × PyStr), (vectorizeApply encT decT pair).2 = (encT, decT)

theorem stepEvents_succ_left (c k : Nat) :
    stepEvents c (k + 1) = TrainEvent.step (c + 1) :: stepEvents (c + 1) k := by
  unfold stepEvents
  rw [List.range_succ_eq_map, List.map_cons, List.map_map]
  refine congrArg₂ _ (by norm_num) ?_
  apply List.map_congr_left
  intro i _
  simp only [Function.comp_apply, Nat.succ_eq_add_one]
  congr 1
  omega

theorem stepEvents_succ_right (c k : Nat) :
    stepEvents c (k + 1) = stepEvents c k ++ [TrainEvent.step (c + k + 1)] := by
  simp [stepEvents, List.range_succ]

theorem logsFold_succ_left {L : Type} (ts : Nat → L → L) (c k : Nat) (l : L) :
    logsFold ts c (k + 1) l = logsFold ts (c + 1) k (ts (c + 1) l) := by
  unfold logsFold
  rw [List.range_succ_eq_map, List.foldl_cons, List.foldl_map]
  have h0 : c + 0 + 1 = c + 1 := by omega
  rw [h0]
  have hf : (fun (lg : L) i => ts (c + (i + 1) + 1) lg) =
      (fun (lg : L) i => ts (c + 1 + i + 1) lg) := by
    funext lg i
    congr 1
    omega
  show (List.range k).foldl (fun lg i => ts (c + Nat.succ i + 1) lg) (ts (c + 1) l) = _
  simp only [Nat.succ_eq_add_one]
  rw [hf]

theorem logsFold_succ_right {L : Type} (ts : Nat → L → L) (c k : Nat) (l : L) :
    logsFold ts c (k + 1) l = ts (c + k + 1) (logsFold ts c k l) := by
  simp [logsFold, List.range_succ]

theorem runPass_ok_append {L : Type} (steps : Nat) (cbs : Option (List (Nat → L → L)))
    (ts : Nat → L → L) (a b : Nat) :
    ∀ (s s1 : TrainState L) (e1 : List TrainEvent),
      runPass steps cbs ts a s = .ok s1 e1 →
      runPass steps cbs ts (a + b) s =
        (match runPass steps cbs ts b s1 with
          | .ok s2 e2 => .ok s2 (e1 ++ e2)
          | .err e e2 => .err e (e1 ++ e2)) := by
  induction a with
  | zero =>
    intro s s1 e1 h
    simp only [runPass, StepOut.ok.injEq] at h
    obtain ⟨rfl, rfl⟩ := h
    rw [Nat.zero_add]
    cases hb : runPass steps cbs ts b s <;> simp
  | succ a ih =>
    intro s s1 e1 h
    have hshift : a + 1 + b = (a + b) + 1 := by omega
    rw [hshift]
    simp only [runPass] at h ⊢
    cases hp : processBatch steps cbs ts s with
    | err e evs =>
      rw [hp] at h
      dsimp only at h
      exact absurd h (by simp)
    | ok sm em =>
      rw [hp] at h
      dsimp only at h ⊢
      cases hr : runPass steps cbs ts a sm with
      | err e e2 =>
        rw [hr] at h
        exact absurd h (by simp)
      | ok s2 e2 =>
        rw [hr] at h
        simp only [StepOut.ok.injEq] at h
        obtain ⟨rfl, rfl⟩ := h
        rw [ih sm s2 e2 hr]
        cases hb : runPass steps cbs ts b s2 <;> simp

theorem runPass_no_block {L : Type} (steps : Nat) (cbs : Option (List (Nat → L → L)))
    (ts : Nat → L → L) :
    ∀ (k : Nat) (s : TrainState L),
      (∀ j, s.batchCount < j → j ≤ s.batchCount + k → ¬ j % steps = 0) →
      runPass steps cbs ts k s =
        .ok ⟨s.epochCount, s.batchCount + k, logsFold ts s.batchCount k s.logs⟩
          (stepEvents s.batchCount k) := by
  intro k
  induction k with
  | zero =>
    intro s _
    simp [runPass, stepEvents, logsFold]
  | succ k ih =>
    intro s h
    have hb : ¬ (s.batchCount + 1) % steps = 0 := h (s.batchCount + 1) (by omega) (by omega)
    simp only [runPass, processBatch, if_neg hb]
    rw [ih ⟨s.epochCount, s.batchCount + 1, ts (s.batchCount + 1) s.logs⟩
      (by intro j h1 h2; simp only at h1 h2; exact h j (by omega) (by omega))]
    rw [stepEvents_succ_left, logsFold_succ_left]
    simp only [List.singleton_append, StepOut.ok.injEq, TrainState.mk.injEq, true_and, and_true]
    omega

theorem runPass_full_block {L : Type} (steps : Nat) (h : 0 < steps)
    (cbs : List (Nat → L → L)) (ts : Nat → L → L) (l0 : L) :
    runPass steps (some cbs) ts steps ⟨0, 0, l0⟩ =
      .ok ⟨1, steps, applyCallbacks cbs 0 (logsFold ts 0 steps l0)⟩
        (stepEvents 0 steps ++ callbackEvents cbs.length 0
          ++ [TrainEvent.saveModel, TrainEvent.epochInc]) := by
  obtain ⟨m, rfl⟩ : ∃ m, steps = m + 1 := ⟨steps - 1, by omega⟩
  have hm : runPass (m + 1) (some cbs) ts m (⟨0, 0, l0⟩ : TrainState L) =
      .ok ⟨0, m, logsFold ts 0 m l0⟩ (stepEvents 0 m) := by
    have hh := runPass_no_block (m + 1) (some cbs) ts m ⟨0, 0, l0⟩ (by
      intro j h1 h2
      simp only at h1 h2
      have : j % (m + 1) = j := Nat.mod_eq_of_lt (by omega)
      omega)
    simpa using hh
  have hsplit := runPass_ok_append (m + 1) (some cbs) ts m 1 ⟨0, 0, l0⟩ _ _ hm
  rw [hsplit]
  have hblock : processBatch (m + 1) (some cbs) ts
      (⟨0, m, logsFold ts 0 m l0⟩ : TrainState L) =
      .ok ⟨1, m + 1, applyCallbacks cbs 0 (ts (m + 1) (logsFold ts 0 m l0))⟩
        (TrainEvent.step (m + 1) :: callbackEvents cbs.length 0
          ++ [TrainEvent.saveModel, TrainEvent.epochInc]) := by
    simp only [processBatch, Nat.mod_self]
    simp
  simp only [runPass, hblock]
  rw [stepEvents_succ_right, logsFold_succ_right]
  simp

/-- Claim C2: after each block of exactly `steps_per_epoch` pulled batches the
loop performs, in order, every registered callback's `on_epoch_end` with the
current logs, then the model save, then a single increment of `epoch_count`;
with `steps_per_epoch = 500` and exactly 500 batches pulled, the callbacks fire
exactly once each and `epoch_count` goes from 0 to 1. -/
theorem epochBlockOrder :
    (∀ (L : Type) (steps : Nat) (cbs : List (Nat → L → L)) (ts : Nat → L → L)
        (s : TrainState L), (s.batchCount + 1) % steps = 0 →
        processBatch steps (some cbs) ts s =
          .ok ⟨s.epochCount + 1, s.batchCount + 1,
                applyCallbacks cbs s.epochCount (ts (s.batchCount + 1) s.logs)⟩
            (TrainEvent.step (s.batchCount + 1) :: callbackEvents cbs.length s.epochCount
              ++ [TrainEvent.saveModel, TrainEvent.epochInc]))
    ∧ (∀ (L : Type) (cbs : List (Nat → L → L)) (ts : Nat → L → L) (l0 : L),
        runPass 500 (some cbs) ts 500 ⟨0, 0, l0⟩ =
          .ok ⟨1, 500, applyCallbacks cbs 0 (logsFold ts 0 500 l0)⟩
            (stepEvents 0 500 ++ callbackEvents cbs.length 0
              ++ [TrainEvent.saveModel, TrainEvent.epochInc])) := by
  constructor
  · intro L steps cbs ts s h
    simp only [processBatch, if_pos h]
  · intro L cbs ts l0
    exact runPass_full_block 500 (by norm_num) cbs ts l0

/-- Witness for `epochBlockOrder` at a concrete block boundary. -/
theorem epochBlockOrder_witness :
    processBatch 3 (some [fun _ l => l]) (fun _ l => l) (⟨7, 2, ()⟩ : TrainState Unit) =
      .ok ⟨8, 3, applyCallbacks [fun _ l => l] 7 ()⟩
        (TrainEvent.step 3 :: callbackEvents 1 7
          ++ [TrainEvent.saveModel, TrainEvent.epochInc]) :=
  epochBlockOrder.1 Unit 3 [fun _ l => l] (fun _ l => l) ⟨7, 2, ()⟩ (by decide)

/-- Claim C9: when `Trainer.train` receives `callbacks=None` and
`val_data=None`, no callback list is ever assigned (`resolveCallbacks` yields
`none`), so the run fails with Python's unbound-local error at the first
multiple of `steps_per_epoch` pulled batches, the point where the callbacks
would be invoked. -/
theorem unboundCallbacksFailure :
    (∀ (C V : Type) (defaults : List C),
        @resolveCallbacks C V none none defaults = none)
    ∧ (∀ (L : Type) (steps k : Nat) (ts : Nat → L → L) (l0 : L),
        0 < steps → steps ≤ k →
        runPass steps (none : Option (List (Nat → L → L))) ts k ⟨0, 0, l0⟩ =
          .err .unboundCallbacks (stepEvents 0 steps)) := by
  constructor
  · intro C V defaults
    rfl
  · intro L steps k ts l0 h1 h2
    obtain ⟨m, rfl⟩ : ∃ m, steps = m + 1 := ⟨steps - 1, by omega⟩
    obtain ⟨r, rfl⟩ : ∃ r, k = m + (r + 1) := ⟨k - m - 1, by omega⟩
    have hm : runPass (m + 1) (none : Option (List (Nat → L → L))) ts m
        (⟨0, 0, l0⟩ : TrainState L) =
        .ok ⟨0, m, logsFold ts 0 m l0⟩ (stepEvents 0 m) := by
      have hh := runPass_no_block (m + 1) none ts m ⟨0, 0, l0⟩ (by
        intro j hj1 hj2
        simp only at hj1 hj2
        have : j % (m + 1) = j := Nat.mod_eq_of_lt (by omega)
        omega)
      simpa using hh
    rw [runPass_ok_append (m + 1) none ts m (r + 1) ⟨0, 0, l0⟩ _ _ hm]
    have hstep : processBatch (m + 1) (none : Option (List (Nat → L → L))) ts
        (⟨0, m, logsFold ts 0 m l0⟩ : TrainState L) =
        .err .unboundCallbacks [TrainEvent.step (m + 1)] := by
      simp only [processBatch, Nat.mod_self]
      simp
    simp only [runPass, hstep]
    rw [stepEvents_succ_right]
    simp

/-- Witness for `unboundCallbacksFailure` at a concrete configuration. -/
theorem unboundCallbacksFailure_witness :
    @resolveCallbacks Nat Nat none none [] = none ∧
    runPass 2 (none : Option (List (Nat → Unit → Unit))) (fun _ l => l) 3 ⟨0, 0, ()⟩ =
      .err .unboundCallbacks (stepEvents 0 2) :=
  ⟨unboundCallbacksFailure.1 Nat Nat [],
   unboundCallbacksFailure.2 Unit 2 3 (fun _ l => l) () (by decide) (by decide)⟩

/-- Claim C1 counterexample: a dataset whose first pass yields one batch and
whose second pass yields zero batches.  After the second (zero-batch) pass
completes, the loop has not failed: with fuel for exactly those two passes the
loop is still running, because the guard tests the cumulative `batch_count`,
which is 1. -/
theorem zeroBatchLaterPassNoFailure :
    @trainLoop Unit 500 1 (some []) (fun _ l => l)
      (fun i => if i = 0 then 1 else 0) 2 0 ⟨0, 0, ()⟩ [] =
      .fuelOut ⟨0, 1, ()⟩ [TrainEvent.step 1] := by decide

/-- Claim C1, amended: the `ValueError` is raised after a completed pass
exactly when the cumulative batch count is zero, which (with `num_epochs ≥ 1`)
happens precisely when the first pass yields zero batches. -/
theorem zeroBatchFirstPassRaises :
    ∀ (L : Type) (steps numEpochs : Nat) (cbs : Option (List (Nat → L → L)))
      (ts : Nat → L → L) (passes : Nat → Nat) (l0 : L) (fuel : Nat),
      0 < numEpochs → passes 0 = 0 →
      trainLoop steps numEpochs cbs ts passes (fuel + 1) 0 ⟨0, 0, l0⟩ [] =
        .failed .zeroBatches [] := by
  intro L steps numEpochs cbs ts passes l0 fuel h1 h2
  simp only [trainLoop, h2, runPass, if_pos h1]
  simp

/-- Witness for `zeroBatchFirstPassRaises` on a concrete empty dataset. -/
theorem zeroBatchFirstPassRaises_witness :
    @trainLoop Unit 500 1 (some []) (fun _ l => l) (fun _ => 0) 1 0 ⟨0, 0, ()⟩ [] =
      .failed .zeroBatches [] :=
  zeroBatchFirstPassRaises Unit 500 1 (some []) (fun _ l => l) (fun _ => 0) () 0
    (by decide) rfl

theorem trainLoop_zero_passes {L : Type} (steps numEpochs : Nat)
    (cbs : Option (List (Nat → L → L))) (ts : Nat → L → L) (passes : Nat → Nat) :
    ∀ (fuel pIdx : Nat) (s : TrainState L) (acc : List TrainEvent),
      s.epochCount < numEpochs → s.batchCount ≠ 0 →
      (∀ i, pIdx ≤ i → passes i = 0) →
      trainLoop steps numEpochs cbs ts passes fuel pIdx s acc = .fuelOut s acc := by
  intro fuel
  induction fuel with
  | zero => intro pIdx s acc _ _ _; rfl
  | succ f ih =>
    intro pIdx s acc h1 h2 h3
    simp only [trainLoop, if_pos h1, h3 pIdx (le_refl pIdx), runPass]
    simp only [if_neg h2, List.append_nil]
    exact ih (pIdx + 1) s acc h1 h2 (fun i hi => h3 i (by omega))

/-- Claim C3 counterexample: a dataset whose first pass yields two batches and
every later pass yields zero.  The run never fails (the cumulative batch count
stays 2, so the zero-batch guard never fires) and never terminates
(`epoch_count` stays 0 < `num_epochs`), refuting unconditional termination. -/
theorem trainLoopNonterminationExample :
    @runsForever Unit 500 1 (some []) (fun _ l => l)
      (fun i => if i = 0 then 2 else 0) ⟨0, 0, ()⟩ := by
  intro fuel
  cases fuel with
  | zero => exact ⟨⟨0, 0, ()⟩, [], rfl⟩
  | succ f =>
    refine ⟨⟨0, 2, ()⟩, [TrainEvent.step 1, TrainEvent.step 2], ?_⟩
    have hrp : @runPass Unit 500 (some []) (fun _ l => l) 2 ⟨0, 0, ()⟩ =
        .ok ⟨0, 2, ()⟩ [TrainEvent.step 1, TrainEvent.step 2] := by decide
    simp only [trainLoop]
    norm_num
    rw [hrp]
    simp only [List.nil_append]
    exact trainLoop_zero_passes 500 1 (some []) (fun _ l => l) _ f 1 ⟨0, 2, ()⟩ _
      (by decide) (by decide) (fun i hi => by simp; omega)

theorem div_succ_of_mod_eq_zero {c steps : Nat} (h : (c + 1) % steps = 0) :
    (c + 1) / steps = c / steps + 1 := by
  rw [Nat.succ_div, if_pos (Nat.dvd_of_mod_eq_zero h)]

theorem div_succ_of_mod_ne_zero {c steps : Nat} (h : ¬ (c + 1) % steps = 0) :
    (c + 1) / steps = c / steps := by
  have hnd : ¬ steps ∣ c + 1 := fun hd => h (Nat.dvd_iff_mod_eq_zero.mp hd)
  rw [Nat.succ_div, if_neg hnd]
  simp

theorem runPass_some_total {L : Type} (steps : Nat) (cbs : List (Nat → L → L))
    (ts : Nat → L → L) :
    ∀ (k : Nat) (s : TrainState L), ∃ s1 evs,
      runPass steps (some cbs) ts k s = .ok s1 evs ∧
      s1.batchCount = s.batchCount + k ∧
      (s.epochCount = s.batchCount / steps → s1.epochCount = s1.batchCount / steps) := by
  intro k
  induction k with
  | zero =>
    intro s
    exact ⟨s, [], rfl, by omega, fun h => h⟩
  | succ k ih =>
    intro s
    by_cases hb : (s.batchCount + 1) % steps = 0
    · obtain ⟨s2, evs2, heq, hbatch, hinv⟩ :=
        ih ⟨s.epochCount + 1, s.batchCount + 1,
             applyCallbacks cbs s.epochCount (ts (s.batchCount + 1) s.logs)⟩
      have heq2 : runPass steps (some cbs) ts (k + 1) s =
          .ok s2 ((TrainEvent.step (s.batchCount + 1)
            :: callbackEvents cbs.length s.epochCount
            ++ [TrainEvent.saveModel, TrainEvent.epochInc]) ++ evs2) := by
        simp only [runPass, processBatch, if_pos hb, heq]
      refine ⟨s2, _, heq2, ?_, ?_⟩
      · simp only at hbatch
        omega
      · intro h
        apply hinv
        simp only [h, div_succ_of_mod_eq_zero hb]
    · obtain ⟨s2, evs2, heq, hbatch, hinv⟩ :=
        ih ⟨s.epochCount, s.batchCount + 1, ts (s.batchCount + 1) s.logs⟩
      have heq2 : runPass steps (some cbs) ts (k + 1) s =
          .ok s2 ([TrainEvent.step (s.batchCount + 1)] ++ evs2) := by
        simp only [runPass, processBatch, if_neg hb, heq]
      refine ⟨s2, _, heq2, ?_, ?_⟩
      · simp only at hbatch
        omega
      · intro h
        apply hinv
        simp only [h, div_succ_of_mod_ne_zero hb]

theorem trainLoop_terminates {L : Type} (steps numEpochs : Nat) (hsteps : 0 < steps)
    (cbs : List (Nat → L → L)) (ts : Nat → L → L) (passes : Nat → Nat)
    (hpass : ∀ i, 1 ≤ passes i) :
    ∀ (fuel pIdx : Nat) (s : TrainState L) (acc : List TrainEvent),
      s.epochCount = s.batchCount / steps →
      numEpochs * steps ≤ s.batchCount + fuel →
      ∃ s1 evs, trainLoop steps numEpochs (some cbs) ts passes (fuel + 1) pIdx s acc =
        .finished s1 evs ∧ numEpochs ≤ s1.epochCount := by
  intro fuel
  induction fuel with
  | zero =>
    intro pIdx s acc hinv hbound
    by_cases hlt : s.epochCount < numEpochs
    · exfalso
      have hb : s.batchCount < numEpochs * steps := by
        rw [hinv] at hlt
        exact (Nat.div_lt_iff_lt_mul hsteps).mp hlt
      omega
    · exact ⟨s, acc, by simp only [trainLoop, if_neg hlt], Nat.le_of_not_lt hlt⟩
  | succ fuel ih =>
    intro pIdx s acc hinv hbound
    by_cases hlt : s.epochCount < numEpochs
    · obtain ⟨s1, evs, heq, hbatch, hinvstep⟩ := runPass_some_total steps cbs ts (passes pIdx) s
      have hb1 : s1.batchCount ≠ 0 := by
        have := hpass pIdx
        omega
      obtain ⟨s2, evs2, heq2, hge⟩ := ih (pIdx + 1) s1 (acc ++ evs) (hinvstep hinv) (by
        have := hpass pIdx
        omega)
      refine ⟨s2, evs2, ?_, hge⟩
      simp only [trainLoop, if_pos hlt, heq, if_neg hb1]
      exact heq2
    · exact ⟨s, acc, by simp only [trainLoop, if_neg hlt], Nat.le_of_not_lt hlt⟩

/-- Claim C3, amended: provided `steps_per_epoch` is positive and every pass
over the dataset yields at least one batch, the training loop terminates,
exiting at a pass boundary with `num_epochs ≤ epoch_count`. -/
theorem trainLoopTerminatesPositivePasses :
    ∀ (L : Type) (steps numEpochs : Nat) (cbs : List (Nat → L → L))
      (ts : Nat → L → L) (passes : Nat → Nat) (l0 : L),
      0 < steps → (∀ i, 1 ≤ passes i) →
      terminatesFrom steps numEpochs (some cbs) ts passes ⟨0, 0, l0⟩ := by
  intro L steps numEpochs cbs ts passes l0 hsteps hpass
  obtain ⟨s1, evs, heq, hge⟩ :=
    trainLoop_terminates steps numEpochs hsteps cbs ts passes hpass
      (numEpochs * steps) 0 ⟨0, 0, l0⟩ [] (by simp) (by omega)
  exact ⟨numEpochs * steps + 1, s1, evs, heq, hge⟩

/-- Witness for `trainLoopTerminatesPositivePasses` at a concrete run. -/
theorem trainLoopTerminatesPositivePasses_witness :
    @terminatesFrom Unit 1 1 (some []) (fun _ l => l) (fun _ => 1) ⟨0, 0, ()⟩ :=
  trainLoopTerminatesPositivePasses Unit 1 1 [] (fun _ l => l) (fun _ => 1) ()
    (by decide) (fun _ => le_refl 1)

/-- Claim C8: `Trainer.train` runs `_init_model` if and only if the
summarizer's preprocessor or vectorizer is `None`; when both are attached the
summarizer's preprocessor and vectorizer are left unchanged. -/
theorem initPhaseIffUninitialized :
    ∀ (P V : Type) (trainerPre : P) (trainerVec : Option V)
      (preprocFn : PyStr × PyStr → PyStr × PyStr) (trainData : List (PyStr × PyStr))
      (m : Nat) (s : SummarizerState P V),
      (∀ p v, s.preprocessor = some p → s.vectorizer = some v →
        trainInitPhase trainerPre trainerVec preprocFn trainData m s = .ok (s, false))
      ∧ ((s.preprocessor = none ∨ s.vectorizer = none) →
        ∀ s1 b, trainInitPhase trainerPre trainerVec preprocFn trainData m s = .ok (s1, b) →
          b = true)
      ∧ (∀ s1, trainInitPhase trainerPre trainerVec preprocFn trainData m s = .ok (s1, true) →
        s.preprocessor = none ∨ s.vectorizer = none) := by
  intro P V trainerPre trainerVec preprocFn trainData m s
  refine ⟨?_, ?_, ?_⟩
  · intro p v hp hv
    simp only [trainInitPhase, hp, hv, Option.isNone_some, Bool.or_self, Bool.false_eq_true,
      if_false]
  · intro hor s1 b heq
    have hcond : (s.preprocessor.isNone || s.vectorizer.isNone) = true := by
      rcases hor with h | h <;> simp [h]
    rw [trainInitPhase, if_pos hcond] at heq
    cases him : initModelStep trainerPre trainerVec preprocFn trainData m with
    | error e => rw [him] at heq; exact absurd heq (by simp [Except.map])
    | ok s2 =>
      rw [him] at heq
      simp only [Except.map, Except.ok.injEq, Prod.mk.injEq] at heq
      exact heq.2.symm
  · intro s1 heq
    by_cases hcond : (s.preprocessor.isNone || s.vectorizer.isNone) = true
    · rcases Bool.or_eq_true_iff.mp hcond with h | h
      · exact Or.inl (Option.isNone_iff_eq_none.mp h)
      · exact Or.inr (Option.isNone_iff_eq_none.mp h)
    · rw [trainInitPhase, if_neg hcond] at heq
      simp only [Except.ok.injEq, Prod.mk.injEq] at heq
      exact absurd heq.2 (by simp)

/-- Witness for `initPhaseIffUninitialized`: an already initialized summarizer
is left unchanged and not re-initialized. -/
theorem initPhaseIffUninitialized_witness :
    @trainInitPhase Nat Nat 0 none (fun d => d) [] 5
      ⟨some 0, some (Sum.inl 7)⟩ = .ok (⟨some 0, some (Sum.inl 7)⟩, false) :=
  (initPhaseIffUninitialized Nat Nat 0 none (fun d => d) [] 5
    ⟨some 0, some (Sum.inl 7)⟩).1 0 (Sum.inl 7) rfl rfl

/-- Claim C4: vocabulary building on an empty corpus fails (the spec's
`EmptyCorpusError`), both at the level of `_create_tokenizers` itself and when
reached through the `_init_model` path of `Trainer.train` on a bare
summarizer. -/
theorem emptyCorpusFails :
    (∀ (m : Nat), createTokenizers [] m = .error .emptyCorpus)
    ∧ (∀ (P V : Type) (trainerPre : P) (preprocFn : PyStr × PyStr → PyStr × PyStr)
        (m : Nat),
        @trainInitPhase P V trainerPre none preprocFn [] m ⟨none, none⟩ =
          .error .emptyCorpus) := by
  constructor
  · intro m
    rfl
  · intro P V trainerPre preprocFn m
    rfl

theorem lookupKey_append {K V : Type} [DecidableEq K] (d1 d2 : List (K × V)) (k : K) :
    lookupKey (d1 ++ d2) k =
      (match lookupKey d1 k with
        | some v => some v
        | none => lookupKey d2 k) := by
  induction d1 with
  | nil => simp [lookupKey]
  | cons p rest ih =>
    by_cases h : p.1 = k
    · simp [lookupKey, h]
    · simp [lookupKey, h, ih]

theorem lookupKey_eq_none_of_not_any {K V : Type} [DecidableEq K] (d : List (K × V))
    (k : K) (h : d.any (fun p => p.1 = k) = false) : lookupKey d k = none := by
  induction d with
  | nil => rfl
  | cons p rest ih =>
    simp only [List.any_cons, Bool.or_eq_false_iff, decide_eq_false_iff_not] at h
    simp only [lookupKey, if_neg h.1]
    exact ih h.2

theorem lookupKey_isSome_of_any {K V : Type} [DecidableEq K] (d : List (K × V))
    (k : K) (h : d.any (fun p => p.1 = k) = true) : (lookupKey d k).isSome = true := by
  induction d with
  | nil => simp at h
  | cons p rest ih =>
    by_cases hp : p.1 = k
    · simp [lookupKey, hp]
    · simp only [List.any_cons, Bool.or_eq_true_iff, decide_eq_true_eq] at h
      rcases h with h | h


      · exact absurd h hp
      · simp only [lookupKey, if_neg hp]
        exact ih h

theorem lookupKey_map_set {K V : Type} [DecidableEq K] (d : List (K × V)) (k k' : K)
    (v : V) :
    lookupKey (d.map (fun p => if p.1 = k then (p.1, v) else p)) k' =
      if k' = k then (lookupKey d k).map (fun _ => v) else lookupKey d k' := by
  induction d with
  | nil => simp [lookupKey]
  | cons p rest ih =>
    simp only [List.map_cons]
    by_cases hpk : p.1 = k
    · by_cases hk : k' = k
      · subst hk
        simp [lookupKey, hpk]
      · have h2 : ¬ p.1 = k' := by
          rw [hpk]
          exact fun h => hk h.symm
        have hk3 : ¬ k = k' := fun h => hk h.symm
        simp [lookupKey, hpk, h2, hk, hk3, ih]
    · by_cases hk : k' = k
      · subst hk
        simp [lookupKey, hpk, ih]
      · by_cases hpk' : p.1 = k'
        · simp [lookupKey, hpk, hpk', hk]
        · simp [lookupKey, hpk, hpk', hk, ih]

theorem lookupKey_dictSet {K V : Type} [DecidableEq K] (d : List (K × V)) (k k' : K)
    (v : V) :
    lookupKey (dictSet d k v) k' = if k' = k then some v else lookupKey d k' := by
  unfold dictSet
  by_cases hany : d.any (fun p => p.1 = k) = true
  · rw [if_pos hany, lookupKey_map_set]
    by_cases hk : k' = k
    · rw [if_pos hk, if_pos hk]
      obtain ⟨w, hw⟩ := Option.isSome_iff_exists.mp (lookupKey_isSome_of_any d k hany)
      rw [hw]
      rfl
    · rw [if_neg hk, if_neg hk]
  · rw [if_neg hany, lookupKey_append]
    have hnone := lookupKey_eq_none_of_not_any d k (Bool.eq_false_iff.mpr hany)
    by_cases hk : k' = k
    · subst hk
      rw [hnone]
      simp [lookupKey]
    · have hk2 : ¬ k = k' := fun h => hk h.symm
      cases hl : lookupKey d k' with
      | some w => simp [hl, hk]
      | none => simp [hl, lookupKey, hk, hk2]

theorem lookupKey_dictAddQ (d : List (PyStr × ℚ)) (k k' : PyStr) (x : ℚ) :
    lookupKey (dictAddQ d k x) k' =
      if k' = k then (lookupKey d k).map (· + x) else lookupKey d k' := by
  induction d with
  | nil => simp [dictAddQ, lookupKey]
  | cons p rest ih =>
    simp only [dictAddQ, List.map_cons] at ih ⊢
    by_cases hpk : p.1 = k
    · by_cases hk : k' = k
      · subst hk
        simp [lookupKey, hpk]
      · have h2 : ¬ p.1 = k' := by
          rw [hpk]
          exact fun h => hk h.symm
        have hk3 : ¬ k = k' := fun h => hk h.symm
        simp [lookupKey, hpk, h2, hk, hk3, ih]
    · by_cases hk : k' = k
      · subst hk
        simp [lookupKey, hpk, ih]
      · by_cases hpk' : p.1 = k'
        · simp [lookupKey, hpk, hpk', hk]
        · simp [lookupKey, hpk, hpk', hk, ih]

theorem keysOf_dictAddQ (d : List (PyStr × ℚ)) (k : PyStr) (x : ℚ) :
    keysOf (dictAddQ d k x) = keysOf d := by
  simp only [keysOf, dictAddQ, List.map_map]
  apply List.map_congr_left
  intro p _
  by_cases h : p.1 = k <;> simp [h]

theorem innerFold_keys {Pred : Type} (p : Pred) :
    ∀ (l : List (PyStr × (Pred → ℚ))) (vs : List (PyStr × ℚ)),
      keysOf (l.foldl (fun vs' sc' => dictAddQ vs' sc'.1 (sc'.2 p)) vs) = keysOf vs := by
  intro l
  induction l with
  | nil => intro vs; rfl
  | cons a rest ih =>
    intro vs
    simp only [List.foldl_cons]
    rw [ih, keysOf_dictAddQ]

theorem innerFold_preserve {Pred : Type} (p : Pred) :
    ∀ (l : List (PyStr × (Pred → ℚ))) (vs : List (PyStr × ℚ)) (k : PyStr),
      (∀ sc' ∈ l, sc'.1 ≠ k) →
      lookupKey (l.foldl (fun vs' sc' => dictAddQ vs' sc'.1 (sc'.2 p)) vs) k =
        lookupKey vs k := by
  intro l
  induction l with
  | nil => intro vs k _; rfl
  | cons a rest ih =>
    intro vs k h
    simp only [List.foldl_cons]
    rw [ih _ k (fun sc' hm => h sc' (List.mem_cons_of_mem a hm)), lookupKey_dictAddQ,
      if_neg (fun he => h a (List.mem_cons_self a rest) he.symm)]

theorem innerFold_update {Pred : Type} (p : Pred) :
    ∀ (l : List (PyStr × (Pred → ℚ))) (vs : List (PyStr × ℚ)) (sc : PyStr × (Pred → ℚ)),
      (l.map Prod.fst).Nodup → sc ∈ l →
      lookupKey (l.foldl (fun vs' sc' => dictAddQ vs' sc'.1 (sc'.2 p)) vs) sc.1 =
        (lookupKey vs sc.1).map (· + sc.2 p) := by
  intro l
  induction l with
  | nil => intro vs sc _ hm; exact absurd hm (List.not_mem_nil sc)
  | cons a rest ih =>
    intro vs sc hnd hm
    simp only [List.map_cons, List.nodup_cons] at hnd
    rcases List.mem_cons.mp hm with rfl | hm2
    · simp only [List.foldl_cons]
      rw [innerFold_preserve p rest _ sc.1
        (fun sc' hm' he => hnd.1 (he ▸ List.mem_map_of_mem Prod.fst hm')),
        lookupKey_dictAddQ, if_pos rfl]
    · have hne : a.1 ≠ sc.1 := fun he => hnd.1 (he ▸ List.mem_map_of_mem Prod.fst hm2)
      simp only [List.foldl_cons]
      rw [ih _ sc hnd.2 hm2, lookupKey_dictAddQ, if_neg (fun he => hne he.symm)]

theorem lookup_map_zero {Pred : Type} :
    ∀ (l : List (PyStr × (Pred → ℚ))) (sc : PyStr × (Pred → ℚ)), sc ∈ l →
      lookupKey (l.map (fun sc' => (sc'.1, (0 : ℚ)))) sc.1 = some 0 := by
  intro l
  induction l with
  | nil => intro sc hm; exact absurd hm (List.not_mem_nil sc)
  | cons a rest ih =>
    intro sc hm
    by_cases h : a.1 = sc.1
    · simp [lookupKey, h]
    · rcases List.mem_cons.mp hm with rfl | hm2
      · exact absurd rfl h
      · simp only [List.map_cons, lookupKey, if_neg h]
        exact ih sc hm2

theorem accum_fold_count {Pred : Type} (predict : PyStr → PyStr → Pred)
    (scorers : List (PyStr × (Pred → ℚ))) :
    ∀ (data : List (PyStr × PyStr)) (acc : Nat × List (PyStr × ℚ)),
      (data.foldl (fun acc d =>
        let p := predict d.1 d.2
        (acc.1 + 1, scorers.foldl (fun vs sc => dictAddQ vs sc.1 (sc.2 p)) acc.2)) acc).1 =
        acc.1 + data.length := by
  intro data
  induction data with
  | nil => intro acc; simp
  | cons d rest ih =>
    intro acc
    simp only [List.foldl_cons, ih, List.length_cons]
    omega

theorem accum_fold_lookup {Pred : Type} (predict : PyStr → PyStr → Pred)
    (scorers : List (PyStr × (Pred → ℚ))) (sc : PyStr × (Pred → ℚ))
    (hnd : (scorers.map Prod.fst).Nodup) (hm : sc ∈ scorers) :
    ∀ (data : List (PyStr × PyStr)) (cnt : Nat) (vs : List (PyStr × ℚ)) (q : ℚ),
      lookupKey vs sc.1 = some q →
      lookupKey ((data.foldl (fun acc d =>
          let p := predict d.1 d.2
          (acc.1 + 1, scorers.foldl (fun vs' sc' => dictAddQ vs' sc'.1 (sc'.2 p)) acc.2))
        (cnt, vs)).2) sc.1 =
        some (q + (data.map (fun d => sc.2 (predict d.1 d.2))).sum) := by
  intro data
  induction data with
  | nil => intro cnt vs q h; simpa using h
  | cons d rest ih =>
    intro cnt vs q h
    simp only [List.foldl_cons]
    have hstep : lookupKey
        (scorers.foldl (fun vs' sc' => dictAddQ vs' sc'.1 (sc'.2 (predict d.1 d.2))) vs)
        sc.1 = some (q + sc.2 (predict d.1 d.2)) := by
      rw [innerFold_update (predict d.1 d.2) scorers vs sc hnd hm, h]
      rfl
    rw [ih (cnt + 1) _ (q + sc.2 (predict d.1 d.2)) hstep]
    simp only [List.map_cons, List.sum_cons]
    congr 1
    ring

theorem evalWriteLogs_ok :
    ∀ (vs : List (PyStr × ℚ)) (c : Nat) (logs : List (PyStr × ℚ)), c ≠ 0 →
      evalWriteLogs vs c logs =
        .ok (vs.foldl (fun lg p => dictSet lg p.1 (p.2 / (c : ℚ))) logs) := by
  intro vs
  induction vs with
  | nil => intro c logs _; rfl
  | cons p rest ih =>
    intro c logs hc
    simp only [evalWriteLogs, if_neg hc, List.foldl_cons]
    exact ih c _ hc

theorem foldSet_preserve (f : PyStr × ℚ → ℚ) :
    ∀ (vs logs : List (PyStr × ℚ)) (k : PyStr),
      (∀ p ∈ vs, p.1 ≠ k) →
      lookupKey (vs.foldl (fun lg p => dictSet lg p.1 (f p)) logs) k = lookupKey logs k := by
  intro vs
  induction vs with
  | nil => intro logs k _; rfl
  | cons p rest ih =>
    intro logs k h
    simp only [List.foldl_cons]
    rw [ih _ k (fun p' hm => h p' (List.mem_cons_of_mem p hm)), lookupKey_dictSet,
      if_neg (fun he => h p (List.mem_cons_self p rest) he.symm)]

theorem foldSet_lookup (f : PyStr × ℚ → ℚ) :
    ∀ (vs logs : List (PyStr × ℚ)) (k : PyStr) (v : ℚ),
      (vs.map Prod.fst).Nodup → lookupKey vs k = some v →
      lookupKey (vs.foldl (fun lg p => dictSet lg p.1 (f p)) logs) k = some (f (k, v)) := by
  intro vs
  induction vs with
  | nil => intro logs k v _ h; exact absurd h (by simp [lookupKey])
  | cons p rest ih =>
    intro logs k v hnd h
    simp only [List.map_cons, List.nodup_cons] at hnd
    simp only [List.foldl_cons]
    by_cases hp : p.1 = k
    · rw [lookupKey, if_pos hp] at h
      have hpair : p = (k, v) := by
        cases p
        simp only at hp
        simp only [Option.some.injEq] at h
        simp [hp, h]
      rw [foldSet_preserve f rest _ k (by
        intro p' hm' he
        exact hnd.1 (hp ▸ he ▸ List.mem_map_of_mem Prod.fst hm')),
        lookupKey_dictSet, if_pos hp.symm, hpair]
    · rw [lookupKey, if_neg hp] at h
      exact ih _ k v hnd.2 h

theorem accum_fold_keys {Pred : Type} (predict : PyStr → PyStr → Pred)
    (scorers : List (PyStr × (Pred → ℚ))) :
    ∀ (data : List (PyStr × PyStr)) (acc : Nat × List (PyStr × ℚ)),
      keysOf ((data.foldl (fun acc d =>
        let p := predict d.1 d.2
        (acc.1 + 1, scorers.foldl (fun vs sc => dictAddQ vs sc.1 (sc.2 p)) acc.2)) acc).2) =
        keysOf acc.2 := by
  intro data
  induction data with
  | nil => intro acc; rfl
  | cons d rest ih =>
    intro acc
    simp only [List.foldl_cons, ih]
    exact innerFold_keys (predict d.1 d.2) scorers acc.2

/-- Claim C10, amended: for `EvaluationCallback.on_epoch_end`, if `val_data`
is empty and at least one scorer is registered the final averaging loop
divides by the zero count and raises; with no scorers that loop body never
runs and nothing is raised.  If `val_data` is non-empty, each scorer's log
entry becomes the arithmetic mean of its score over all validation pairs. -/
theorem evalMeanScores :
    ∀ (Pred : Type) (cb : EvalCallbackModel Pred) (logs : List (PyStr × ℚ)),
      (cb.valData = [] → cb.scorers ≠ [] → onEpochEnd cb logs = .error .zeroDivision)
      ∧ (cb.valData ≠ [] → (cb.scorers.map Prod.fst).Nodup →
          ∀ sc ∈ cb.scorers,
            (onEpochEnd cb logs).map (fun lg => lookupKey lg sc.1) =
              .ok (some ((cb.valData.map (fun d => sc.2 (cb.predictVectors d.1 d.2))).sum
                / (cb.valData.length : ℚ)))) := by
  intro Pred cb logs
  constructor
  · intro hdata hsc
    obtain ⟨a, rest, heq⟩ := List.exists_cons_of_ne_nil hsc
    simp only [onEpochEnd, evalAccumulate, hdata, List.foldl_nil, heq, List.map_cons]
    rfl
  · intro hdata hnd sc hm
    have hc : cb.valData.length ≠ 0 := fun h => hdata (List.length_eq_zero.mp h)
    have hcount : (evalAccumulate cb).1 = cb.valData.length := by
      simp only [evalAccumulate]
      rw [accum_fold_count cb.predictVectors cb.scorers cb.valData]
      simp
    have hinit : lookupKey (cb.scorers.map (fun sc' => (sc'.1, (0 : ℚ)))) sc.1 = some 0 :=
      lookup_map_zero cb.scorers sc hm
    have hlook : lookupKey (evalAccumulate cb).2 sc.1 =
        some (0 + (cb.valData.map (fun d => sc.2 (cb.predictVectors d.1 d.2))).sum) := by
      simp only [evalAccumulate]
      exact accum_fold_lookup cb.predictVectors cb.scorers sc hnd hm cb.valData 0 _ 0 hinit
    have hkeys : ((evalAccumulate cb).2.map Prod.fst).Nodup := by
      have h1 : keysOf (evalAccumulate cb).2 = keysOf (cb.scorers.map
          (fun sc' => (sc'.1, (0 : ℚ)))) := by
        simp only [evalAccumulate]
        exact accum_fold_keys cb.predictVectors cb.scorers cb.valData _
      have h2 : keysOf (cb.scorers.map (fun sc' => (sc'.1, (0 : ℚ)))) =
          cb.scorers.map Prod.fst := by
        simp [keysOf, List.map_map, Function.comp_def]
      show (keysOf (evalAccumulate cb).2).Nodup
      rw [h1, h2]
      exact hnd
    have hwrite := evalWriteLogs_ok (evalAccumulate cb).2 (evalAccumulate cb).1 logs
      (by rw [hcount]; exact hc)
    have hfinal := foldSet_lookup (fun p => p.2 / ((evalAccumulate cb).1 : ℚ))
      (evalAccumulate cb).2 logs sc.1 _ hkeys hlook
    dsimp only at hfinal
    rw [hcount] at hwrite hfinal
    rw [zero_add] at hfinal
    simp only [onEpochEnd, hcount]
    rw [hwrite]
    simp only [Except.map]
    rw [hfinal]

/-- Claim C10 counterexample: invoking `on_epoch_end` with an empty `val_data`
and an empty scorers dict raises nothing — the final averaging loop has no
iterations, so no division by the zero count happens, contradicting the
claim's unconditional division-by-zero for empty validation data. -/
theorem evalNoScorersNoError :
    @onEpochEnd Unit ⟨fun _ _ => (), [], []⟩ [] = .ok [] := rfl

/-- Witness for `evalMeanScores` on a one-scorer, one-pair callback. -/
theorem evalMeanScores_witness :
    (@onEpochEnd Unit
        ⟨fun _ _ => (), [(['s'], fun _ => 2)], [(['a'], ['b'])]⟩ []).map
      (fun lg => lookupKey lg ['s']) = .ok (some 2) := by
  have h := (evalMeanScores Unit
      ⟨fun _ _ => (), [(['s'], fun _ => 2)], [(['a'], ['b'])]⟩ []).2
    (by simp) (by simp) (['s'], fun _ => 2) (List.mem_singleton.mpr rfl)
  simpa using h

theorem splitWsAux_all_non_ws :
    ∀ (l acc : List Char), (∀ c ∈ l, isWs c = false) → (l ≠ [] ∨ acc ≠ []) →
      splitWsAux l acc = [acc.reverse ++ l] := by
  intro l
  induction l with
  | nil =>
    intro acc _ hne
    rcases hne with h | h
    · exact absurd rfl h
    · simp [splitWsAux, h]
  | cons c rest ih =>
    intro acc h _
    have hc : isWs c = false := h c (List.mem_cons_self c rest)
    simp only [splitWsAux, hc, Bool.false_eq_true, if_false]
    rw [ih (c :: acc) (fun d hd => h d (List.mem_cons_of_mem c hd)) (Or.inr (by simp))]
    simp

theorem splitWs_self (t : PyStr) (hne : t ≠ []) (h : ∀ c ∈ t, isWs c = false) :
    splitWs t = [t] := by
  unfold splitWs
  rw [splitWsAux_all_non_ws t [] h (Or.inl hne)]
  simp

theorem splitWsAux_tokens :
    ∀ (l acc : List Char), (∀ c ∈ acc, isWs c = false) →
      ∀ t ∈ splitWsAux l acc, t ≠ [] ∧ ∀ c ∈ t, isWs c = false := by
  intro l
  induction l with
  | nil =>
    intro acc hacc t ht
    by_cases h : acc = []
    · simp [splitWsAux, h] at ht
    · simp only [splitWsAux, if_neg h, List.mem_singleton] at ht
      subst ht
      exact ⟨by simpa using h, fun c hc => hacc c (List.mem_reverse.mp hc)⟩
  | cons c rest ih =>
    intro acc hacc t ht
    by_cases hc : isWs c = true
    · simp only [splitWsAux, hc, if_true] at ht
      by_cases h : acc = []
      · rw [if_pos h] at ht
        exact ih [] (by simp) t ht
      · rw [if_neg h] at ht
        rcases List.mem_cons.mp ht with rfl | ht2
        · exact ⟨by simpa using h, fun d hd => hacc d (List.mem_reverse.mp hd)⟩
        · exact ih [] (by simp) t ht2
    · simp only [splitWsAux, hc, Bool.false_eq_true, if_false] at ht
      exact ih (c :: acc) (by
        intro d hd
        rcases List.mem_cons.mp hd with rfl | hd2
        · simpa using hc
        · exact hacc d hd2) t ht

theorem splitWs_tokens (s : PyStr) :
    ∀ t ∈ splitWs s, t ≠ [] ∧ ∀ c ∈ t, isWs c = false :=
  splitWsAux_tokens s [] (by simp)

theorem lookupKey_map_adjust {K V : Type} [DecidableEq K] (d : List (K × V)) (k k' : K)
    (f : V → V) :
    lookupKey (d.map (fun p => if p.1 = k then (p.1, f p.2) else p)) k' =
      if k' = k then (lookupKey d k).map f else lookupKey d k' := by
  induction d with
  | nil => simp [lookupKey]
  | cons p rest ih =>
    simp only [List.map_cons]
    by_cases hpk : p.1 = k
    · by_cases hk : k' = k
      · subst hk
        simp [lookupKey, hpk]
      · have h2 : ¬ p.1 = k' := by
          rw [hpk]
          exact fun h => hk h.symm
        have hk3 : ¬ k = k' := fun h => hk h.symm
        simp [lookupKey, hpk, h2, hk, hk3, ih]
    · by_cases hk : k' = k
      · subst hk
        simp [lookupKey, hpk, ih]
      · by_cases hpk' : p.1 = k'
        · simp [lookupKey, hpk, hpk', hk]
        · simp [lookupKey, hpk, hpk', hk, ih]

theorem any_key_iff {K V : Type} [DecidableEq K] (d : List (K × V)) (k : K) :
    (d.any (fun p => p.1 = k)) = true ↔ k ∈ keysOf d := by
  simp [keysOf, List.any_eq_true]

theorem countOf_counterAdd (c : List (PyStr × Nat)) (s t : PyStr) :
    countOf (counterAdd c s) t = countOf c t + if s = t then 1 else 0 := by
  unfold countOf counterAdd
  by_cases hany : c.any (fun p => p.1 = s) = true
  · rw [if_pos hany, lookupKey_map_adjust c s t (fun v => v + 1)]
    by_cases ht : t = s
    · subst ht
      rw [if_pos rfl, if_pos rfl]
      obtain ⟨w, hw⟩ := Option.isSome_iff_exists.mp (lookupKey_isSome_of_any c t hany)
      rw [hw]
      rfl
    · rw [if_neg ht, if_neg (fun h => ht h.symm)]
      simp
  · rw [if_neg hany, lookupKey_append]
    have hnone := lookupKey_eq_none_of_not_any c s (Bool.eq_false_iff.mpr hany)
    by_cases ht : t = s
    · subst ht
      rw [hnone]
      simp [lookupKey]
    · have ht2 : ¬ s = t := fun h => ht h.symm
      rw [if_neg ht2]
      cases hl : lookupKey c t with
      | some w => simp [hl]
      | none => simp [hl, lookupKey, ht2]

theorem countOf_foldl_counterAdd :
    ∀ (l : List PyStr) (c : List (PyStr × Nat)) (t : PyStr),
      countOf (l.foldl counterAdd c) t = countOf c t + l.count t := by
  intro l
  induction l with
  | nil => intro c t; simp
  | cons s rest ih =>
    intro c t
    simp only [List.foldl_cons, ih, countOf_counterAdd, List.count_cons, beq_iff_eq]
    by_cases h : s = t
    · simp [h]
      omega
    · have h3 : ¬ t = s := fun he => h (Eq.symm he)
      simp [h, h3]

theorem countOf_counterOf (l : List PyStr) (t : PyStr) :
    countOf (counterOf l) t = l.count t := by
  unfold counterOf
  rw [countOf_foldl_counterAdd]
  simp [countOf, lookupKey]

theorem keysOf_counterAdd (c : List (PyStr × Nat)) (s : PyStr) :
    keysOf (counterAdd c s) = keysOf c ∨
      (keysOf (counterAdd c s) = keysOf c ++ [s] ∧ s ∉ keysOf c) := by
  unfold counterAdd
  by_cases hany : c.any (fun p => p.1 = s) = true
  · left
    rw [if_pos hany]
    simp only [keysOf, List.map_map]
    apply List.map_congr_left
    intro p _
    by_cases h : p.1 = s <;> simp [h]
  · right
    rw [if_neg hany]
    refine ⟨by simp [keysOf], ?_⟩
    intro hmem
    exact hany ((any_key_iff c s).mpr hmem)

theorem counter_keys_nodup :
    ∀ (l : List PyStr) (c : List (PyStr × Nat)), (keysOf c).Nodup →
      (keysOf (l.foldl counterAdd c)).Nodup := by
  intro l
  induction l with
  | nil => intro c h; exact h
  | cons s rest ih =>
    intro c h
    simp only [List.foldl_cons]
    apply ih
    rcases keysOf_counterAdd c s with he | ⟨he, hne⟩
    · rw [he]; exact h
    · rw [he, List.nodup_append]
      exact ⟨h, List.nodup_singleton s, by simpa using hne⟩

theorem counter_keys_sub :
    ∀ (l : List PyStr) (c : List (PyStr × Nat)) (p : PyStr × Nat),
      p ∈ l.foldl counterAdd c → p.1 ∈ keysOf c ∨ p.1 ∈ l := by
  intro l
  induction l with
  | nil => intro c p h; exact Or.inl (List.mem_map_of_mem Prod.fst h)
  | cons s rest ih =>
    intro c p h
    rcases ih (counterAdd c s) p h with hin | hin
    · unfold counterAdd at hin
      by_cases hany : c.any (fun p => p.1 = s) = true
      · rw [if_pos hany] at hin
        have hkeys : keysOf (c.map (fun p => if p.1 = s then (p.1, p.2 + 1) else p)) =
            keysOf c := by
          simp only [keysOf, List.map_map]
          apply List.map_congr_left
          intro q _
          by_cases h : q.1 = s <;> simp [h]
        rw [hkeys] at hin
        exact Or.inl hin
      · rw [if_neg hany] at hin
        simp only [keysOf, List.map_append, List.mem_append] at hin
        rcases hin with hin | hin
        · exact Or.inl hin
        · right
          simp at hin
          simp [hin]
    · exact Or.inr (List.mem_cons_of_mem s hin)

theorem counterAdd_length (c : List (PyStr × Nat)) (s : PyStr) :
    (counterAdd c s).length ≤ c.length + 1 := by
  unfold counterAdd
  by_cases hany : c.any (fun p => p.1 = s) = true
  · rw [if_pos hany]
    simp
  · rw [if_neg hany]
    simp

theorem counter_length :
    ∀ (l : List PyStr) (c : List (PyStr × Nat)),
      (l.foldl counterAdd c).length ≤ c.length + l.length := by
  intro l
  induction l with
  | nil => intro c; simp
  | cons s rest ih =>
    intro c
    simp only [List.foldl_cons, List.length_cons]
    have h1 := ih (counterAdd c s)
    have h2 := counterAdd_length c s
    omega

theorem mem_insertIfAbsent (l : List PyStr) (t x : PyStr) :
    x ∈ insertIfAbsent l t ↔ x ∈ l ∨ x = t := by
  unfold insertIfAbsent
  by_cases h : t ∈ l
  · rw [if_pos h]
    constructor
    · exact Or.inl
    · rintro (hx | rfl)
      · exact hx
      · exact h
  · rw [if_neg h]
    simp

theorem nodup_insertIfAbsent (l : List PyStr) (t : PyStr) (h : l.Nodup) :
    (insertIfAbsent l t).Nodup := by
  unfold insertIfAbsent
  by_cases ht : t ∈ l
  · rw [if_pos ht]; exact h
  · rw [if_neg ht]
    rw [List.nodup_append]
    exact ⟨h, List.nodup_singleton t, by simpa using ht⟩

theorem length_insertIfAbsent (l : List PyStr) (t : PyStr) :
    (insertIfAbsent l t).length ≤ l.length + 1 := by
  unfold insertIfAbsent
  by_cases ht : t ∈ l
  · rw [if_pos ht]; omega
  · rw [if_neg ht]; simp

theorem mem_foldl_insertIfAbsent :
    ∀ (l init : List PyStr) (x : PyStr),
      x ∈ l.foldl insertIfAbsent init ↔ x ∈ init ∨ x ∈ l := by
  intro l
  induction l with
  | nil => intro init x; simp
  | cons a rest ih =>
    intro init x
    simp only [List.foldl_cons, ih, mem_insertIfAbsent, List.mem_cons]
    tauto

theorem nodup_foldl_insertIfAbsent :
    ∀ (l init : List PyStr), init.Nodup → (l.foldl insertIfAbsent init).Nodup := by
  intro l
  induction l with
  | nil => intro init h; exact h
  | cons a rest ih =>
    intro init h
    exact ih (insertIfAbsent init a) (nodup_insertIfAbsent init a h)

theorem length_foldl_insertIfAbsent :
    ∀ (l init : List PyStr), (l.foldl insertIfAbsent init).length ≤ init.length + l.length := by
  intro l
  induction l with
  | nil => intro init; simp
  | cons a rest ih =>
    intro init
    simp only [List.foldl_cons, List.length_cons]
    have h1 := ih (insertIfAbsent init a)
    have h2 := length_insertIfAbsent init a
    omega

theorem tokenListOf_nodup (c : List (PyStr × Nat)) (m : Nat) :
    (tokenListOf c m).Nodup := by
  unfold tokenListOf
  apply nodup_insertIfAbsent
  apply nodup_insertIfAbsent
  exact nodup_foldl_insertIfAbsent _ [] List.nodup_nil

theorem mem_tokenListOf (c : List (PyStr × Nat)) (m : Nat) (t : PyStr) :
    t ∈ tokenListOf c m ↔
      t ∈ (mostCommon m c).map Prod.fst ∨ t = startToken ∨ t = endToken := by
  unfold tokenListOf
  simp only [mem_insertIfAbsent, mem_foldl_insertIfAbsent]
  simp only [List.not_mem_nil, false_or]
  tauto

theorem tokenListOf_length (c : List (PyStr × Nat)) (m : Nat) :
    (tokenListOf c m).length ≤ m + 2 := by
  unfold tokenListOf
  have h0 : (mostCommon m c).length ≤ m := by
    unfold mostCommon
    have := List.length_take m (c.insertionSort byCountDesc)
    omega
  have h1 := length_foldl_insertIfAbsent ((mostCommon m c).map Prod.fst) []
  have h2 := length_insertIfAbsent
    (((mostCommon m c).map Prod.fst).foldl insertIfAbsent []) startToken
  have h3 := length_insertIfAbsent
    (insertIfAbsent (((mostCommon m c).map Prod.fst).foldl insertIfAbsent []) startToken)
    endToken
  simp only [List.length_map, List.length_nil] at h1
  omega

theorem mem_mostCommon_sub (n : Nat) (c : List (PyStr × Nat)) (p : PyStr × Nat)
    (h : p ∈ mostCommon n c) : p ∈ c :=
  (List.perm_insertionSort byCountDesc c).mem_iff.mp (List.mem_of_mem_take h)

theorem mostCommon_dominates (n : Nat) (c : List (PyStr × Nat)) :
    ∀ a ∈ mostCommon n c, ∀ b ∈ c, b.1 ∉ (mostCommon n c).map Prod.fst → b.2 ≤ a.2 := by
  intro a ha b hb hnotin
  have hs : List.Sorted byCountDesc (c.insertionSort byCountDesc) :=
    List.sorted_insertionSort byCountDesc c
  have hsplit : c.insertionSort byCountDesc =
      mostCommon n c ++ (c.insertionSort byCountDesc).drop n :=
    (List.take_append_drop n _).symm
  rw [hsplit] at hs
  have h3 := (List.pairwise_append.mp hs).2.2
  have hbmem : b ∈ c.insertionSort byCountDesc :=
    (List.perm_insertionSort byCountDesc c).mem_iff.mpr hb
  rw [hsplit] at hbmem
  rcases List.mem_append.mp hbmem with hbin | hbin
  · exact absurd (List.mem_map_of_mem Prod.fst hbin) hnotin
  · exact h3 a ha b hbin

theorem sortTokens_eq_of_perm (l1 l2 : List PyStr) (h : l1.Perm l2) :
    l1.insertionSort (· ≤ ·) = l2.insertionSort (· ≤ ·) :=
  List.eq_of_perm_of_sorted
    ((List.perm_insertionSort _ l1).trans (h.trans (List.perm_insertionSort _ l2).symm))
    (List.sorted_insertionSort _ l1) (List.sorted_insertionSort _ l2)

theorem sortTokens_sorted (l : List PyStr) :
    List.Sorted (· ≤ ·) (l.insertionSort (· ≤ ·)) :=
  List.sorted_insertionSort _ l

theorem sortTokens_nodup (l : List PyStr) (h : l.Nodup) :
    (l.insertionSort (· ≤ ·)).Nodup :=
  (List.perm_insertionSort _ l).symm.nodup h

theorem flatMap_splitWs_self :
    ∀ (texts : List PyStr), (∀ t ∈ texts, splitWs t = [t]) →
      texts.flatMap splitWs = texts := by
  intro texts
  induction texts with
  | nil => intro _; rfl
  | cons a rest ih =>
    intro h
    rw [List.flatMap_cons, h a (List.mem_cons_self a rest),
      ih (fun t ht => h t (List.mem_cons_of_mem a ht))]
    rfl

theorem foldl_counterAdd_nodup :
    ∀ (l : List PyStr) (c : List (PyStr × Nat)), l.Nodup → (∀ t ∈ l, t ∉ keysOf c) →
      l.foldl counterAdd c = c ++ l.map (fun t => (t, 1)) := by
  intro l
  induction l with
  | nil => intro c _ _; simp
  | cons t rest ih =>
    intro c hnd hdisj
    simp only [List.nodup_cons] at hnd
    have hmem : t ∉ keysOf c := hdisj t (List.mem_cons_self t rest)
    have hany : ¬ (c.any (fun p => p.1 = t)) = true := fun h => hmem ((any_key_iff c t).mp h)
    simp only [List.foldl_cons]
    rw [show counterAdd c t = c ++ [(t, 1)] from by unfold counterAdd; rw [if_neg hany]]
    rw [ih (c ++ [(t, 1)]) hnd.2 (by
      intro u hu hku
      simp only [keysOf, List.map_append, List.mem_append] at hku
      rcases hku with hk | hk
      · exact hdisj u (List.mem_cons_of_mem t hu) hk
      · simp at hk
        exact hnd.1 (hk ▸ hu))]
    simp

theorem counterOf_nodup (l : List PyStr) (h : l.Nodup) :
    counterOf l = l.map (fun t => (t, 1)) := by
  unfold counterOf
  rw [foldl_counterAdd_nodup l [] h (by simp [keysOf])]
  simp

theorem sorted_map_ones (ts : List PyStr) :
    List.Sorted byCountDesc (ts.map (fun t => (t, 1))) := by
  induction ts with
  | nil => simp
  | cons a rest ih =>
    rw [List.map_cons, List.sorted_cons]
    refine ⟨?_, ih⟩
    intro b hb
    obtain ⟨x, _, rfl⟩ := List.mem_map.mp hb
    exact le_refl 1

theorem fitOnTexts_token_list (ts : List PyStr) (hnd : ts.Nodup)
    (hsingle : ∀ t ∈ ts, splitWs t = [t]) :
    fitOnTexts ts = ⟨dictOfPairs ((oovToken :: ts).zip (List.range' 1 (ts.length + 1)))⟩ := by
  unfold fitOnTexts
  rw [flatMap_splitWs_self ts hsingle, counterOf_nodup ts hnd]
  dsimp only
  rw [List.Sorted.insertionSort_eq (sorted_map_ones ts)]
  simp [List.map_map, Function.comp_def]

theorem lookupKey_eq_none_of_not_mem_keys {K V : Type} [DecidableEq K]
    (d : List (K × V)) (k : K) (h : k ∉ keysOf d) : lookupKey d k = none :=
  lookupKey_eq_none_of_not_any d k (by
    rw [Bool.eq_false_iff]
    exact fun ha => h ((any_key_iff d k).mp ha))

theorem foldl_dictSet_lookup {K V : Type} [DecidableEq K] :
    ∀ (ps d0 : List (K × V)) (k : K),
      lookupKey (ps.foldl (fun d p => dictSet d p.1 p.2) d0) k =
        (match lookupKey ps.reverse k with
          | some v => some v
          | none => lookupKey d0 k) := by
  intro ps
  induction ps with
  | nil => intro d0 k; simp [lookupKey]
  | cons p rest ih =>
    intro d0 k
    simp only [List.foldl_cons, List.reverse_cons]
    rw [ih, lookupKey_append]
    cases hr : lookupKey rest.reverse k with
    | some v => rfl
    | none =>
      rw [lookupKey_dictSet]
      by_cases hk : p.1 = k
      · simp [lookupKey, hk]
      · have hk2 : ¬ k = p.1 := fun h => hk h.symm
        simp [lookupKey, hk, hk2]

theorem dictOfPairs_lookup {K V : Type} [DecidableEq K] (ps : List (K × V)) (k : K) :
    lookupKey (dictOfPairs ps) k = lookupKey ps.reverse k := by
  unfold dictOfPairs
  rw [foldl_dictSet_lookup]
  cases hr : lookupKey ps.reverse k with
  | some v => rfl
  | none => rfl

theorem zip_range_lookup :
    ∀ (ts : List PyStr) (a i : Nat) (hi : i < ts.length), ts.Nodup →
      lookupKey (ts.zip (List.range' a ts.length)) ts[i] = some (a + i) := by
  intro ts
  induction ts with
  | nil => intro a i hi _; simp at hi
  | cons t rest ih =>
    intro a i hi hnd
    simp only [List.nodup_cons] at hnd
    rw [List.length_cons, List.range'_succ, List.zip_cons_cons]
    cases i with
    | zero =>
      simp [lookupKey]
    | succ j =>
      have hj : j < rest.length := by simpa using hi
      have hne : ¬ t = rest[j] := fun he => hnd.1 (he ▸ List.getElem_mem hj)
      have hget : (t :: rest)[j + 1] = rest[j] := by simp
      rw [hget, lookupKey, if_neg hne, ih (a + 1) j hj hnd.2]
      congr 1
      omega

theorem lookupKey_reverse_nodup {K V : Type} [DecidableEq K] :
    ∀ (d : List (K × V)) (k : K), (keysOf d).Nodup →
      lookupKey d.reverse k = lookupKey d k := by
  intro d
  induction d with
  | nil => intro k _; rfl
  | cons p rest ih =>
    intro k hnd
    simp only [keysOf, List.map_cons, List.nodup_cons] at hnd
    rw [List.reverse_cons, lookupKey_append]
    by_cases hk : p.1 = k
    · have hmem : k ∉ keysOf rest := by
        rw [← hk]
        exact hnd.1
      have hrev : lookupKey rest.reverse k = none := by
        apply lookupKey_eq_none_of_not_mem_keys
        intro hrk
        apply hmem
        simp only [keysOf] at hrk ⊢
        rw [List.map_reverse] at hrk
        exact List.mem_reverse.mp hrk
      rw [hrev]
      simp [lookupKey, hk]
    · rw [ih k hnd.2]
      cases hr : lookupKey rest k with
      | some v => simp [lookupKey, hk, hr]
      | none => simp [lookupKey, hk, hr]

theorem fit_lookup_sorted (ts : List PyStr) (hnd : ts.Nodup)
    (hsingle : ∀ t ∈ ts, splitWs t = [t]) (i : Nat) (hi : i < ts.length) :
    lookupKey (fitOnTexts ts).wordIndex ts[i] = some (i + 2) := by
  rw [fitOnTexts_token_list ts hnd hsingle]
  show lookupKey (dictOfPairs ((oovToken :: ts).zip (List.range' 1 (ts.length + 1)))) ts[i] =
    some (i + 2)
  rw [dictOfPairs_lookup, List.range'_succ, List.zip_cons_cons, List.reverse_cons,
    lookupKey_append]
  have hkeysnd : (keysOf (ts.zip (List.range' 2 ts.length))).Nodup := by
    show ((ts.zip (List.range' 2 ts.length)).map Prod.fst).Nodup
    rw [List.map_fst_zip ts _ (by simp)]
    exact hnd
  rw [lookupKey_reverse_nodup _ _ hkeysnd, zip_range_lookup ts 2 i hi hnd]
  have : (2 : Nat) + i = i + 2 := by omega
  rw [this]

theorem tokenListOf_single_piece (texts : List PyStr) (m : Nat) :
    ∀ t ∈ tokenListOf (sideCounter texts) m, splitWs t = [t] := by
  intro t ht
  rcases (mem_tokenListOf _ m t).mp ht with hsel | rfl | rfl
  · obtain ⟨p, hp, rfl⟩ := List.mem_map.mp hsel
    have hmem := mem_mostCommon_sub m _ p hp
    rcases counter_keys_sub (texts.flatMap splitWs) [] p hmem with hk | hk
    · simp [keysOf] at hk
    · obtain ⟨s, _, hts⟩ := List.mem_flatMap.mp hk
      obtain ⟨hne, hnws⟩ := splitWs_tokens s p.1 hts
      exact splitWs_self p.1 hne hnws
  · decide
  · decide

theorem side_ok (texts : List PyStr) (m : Nat) :
    sideCharacterized texts m
      (fitOnTexts ((tokenListOf (sideCounter texts) m).insertionSort (· ≤ ·))) := by
  refine ⟨?_, ?_, ?_, ?_, ?_, ?_⟩
  · intro t
    exact countOf_counterOf (texts.flatMap splitWs) t
  · rw [List.length_map]
    unfold mostCommon
    have := List.length_take m ((sideCounter texts).insertionSort byCountDesc)
    omega
  · exact mostCommon_dominates m (sideCounter texts)
  · intro t
    exact mem_tokenListOf (sideCounter texts) m t
  · exact sortTokens_sorted _
  · intro i hi
    apply fit_lookup_sorted
    · exact sortTokens_nodup _ (tokenListOf_nodup (sideCounter texts) m)
    · intro t ht
      exact tokenListOf_single_piece texts m t
        ((List.perm_insertionSort (· ≤ ·) (tokenListOf (sideCounter texts) m)).mem_iff.mp ht)

/-- Claim C5: on a non-empty corpus, vocabulary building counts
whitespace-delimited token frequencies independently per side, selects the top
`max_vocab_size` tokens by descending frequency, unions them with the reserved
start and end tokens, and assigns integer ids in a deterministic order over the
sorted token list, independently for the encoder and decoder sides. -/
theorem vocabBuildCharacterization :
    ∀ (corpus : List (PyStr × PyStr)) (m : Nat), corpus ≠ [] → vocabClaimHolds corpus m := by
  intro corpus m h
  refine ⟨_, _, ?_, side_ok (corpus.map Prod.fst) m, side_ok (corpus.map Prod.snd) m⟩
  unfold createTokenizers createTokenizersWith
  rw [if_neg h]

/-- Witness for `vocabBuildCharacterization` on a one-pair corpus. -/
theorem vocabBuildCharacterization_witness : vocabClaimHolds [(['a'], ['b'])] 5 :=
  vocabBuildCharacterization [(['a'], ['b'])] 5 (by simp)

/-- Claim C6: vocabulary building is deterministic (idempotent).  Python'ss only
nondeterminism here is the iteration order of the two token sets, so the claim
is stated for any two enumerations of each side's token set: both runs produce
identical tokenizers, because the sets are sorted before fitting. -/
theorem vocabBuildIdempotent :
    ∀ (corpus : List (PyStr × PyStr)) (m : Nat) (e1 e2 d1 d2 : List PyStr),
      e1.Perm (tokenListOf (sideCounter (corpus.map Prod.fst)) m) →
      e2.Perm (tokenListOf (sideCounter (corpus.map Prod.fst)) m) →
      d1.Perm (tokenListOf (sideCounter (corpus.map Prod.snd)) m) →
      d2.Perm (tokenListOf (sideCounter (corpus.map Prod.snd)) m) →
      createTokenizersWith corpus m e1 d1 = createTokenizersWith corpus m e2 d2 := by
  intro corpus m e1 e2 d1 d2 h1 h2 h3 h4
  unfold createTokenizersWith
  by_cases h : corpus = []
  · rw [if_pos h, if_pos h]
  · rw [if_neg h, if_neg h, sortTokens_eq_of_perm e1 e2 (h1.trans h2.symm),
      sortTokens_eq_of_perm d1 d2 (h3.trans h4.symm)]

/-- Witness for `vocabBuildIdempotent`: two different enumeration orders of
the same token sets give the same tokenizers. -/
theorem vocabBuildIdempotent_witness :
    createTokenizersWith [(['a'], ['b'])] 5 [['a'], startToken, endToken]
        [['b'], startToken, endToken] =
      createTokenizersWith [(['a'], ['b'])] 5 [endToken, ['a'], startToken]
        [endToken, ['b'], startToken] :=
  vocabBuildIdempotent [(['a'], ['b'])] 5 _ _ _ _ (by decide) (by decide) (by decide)
    (by decide)

theorem dictSet_length {K V : Type} [DecidableEq K] (d : List (K × V)) (k : K) (v : V) :
    (dictSet d k v).length ≤ d.length + 1 := by
  unfold dictSet
  by_cases h : d.any (fun p => p.1 = k) = true
  · rw [if_pos h]
    simp
  · rw [if_neg h]
    simp

theorem foldl_dictSet_length {K V : Type} [DecidableEq K] :
    ∀ (ps d0 : List (K × V)),
      (ps.foldl (fun d p => dictSet d p.1 p.2) d0).length ≤ d0.length + ps.length := by
  intro ps
  induction ps with
  | nil => intro d0; simp
  | cons p rest ih =>
    intro d0
    simp only [List.foldl_cons, List.length_cons]
    have h1 := ih (dictSet d0 p.1 p.2)
    have h2 := dictSet_length d0 p.1 p.2
    omega

theorem dictOfPairs_length {K V : Type} [DecidableEq K] (ps : List (K × V)) :
    (dictOfPairs ps).length ≤ ps.length := by
  unfold dictOfPairs
  have := foldl_dictSet_length ps []
  simpa using this

theorem fit_wordIndex_length (ts : List PyStr) (hnd : ts.Nodup)
    (hsingle : ∀ t ∈ ts, splitWs t = [t]) :
    (fitOnTexts ts).wordIndex.length ≤ ts.length + 1 := by
  rw [fitOnTexts_token_list ts hnd hsingle]
  show (dictOfPairs ((oovToken :: ts).zip (List.range' 1 (ts.length + 1)))).length ≤
    ts.length + 1
  have h1 := dictOfPairs_length ((oovToken :: ts).zip (List.range' 1 (ts.length + 1)))
  have h2 : ((oovToken :: ts).zip (List.range' 1 (ts.length + 1))).length = ts.length + 1 := by
    rw [List.length_zip]
    simp
  omega

theorem side_size_bound (texts : List PyStr) (m : Nat) :
    (fitOnTexts ((tokenListOf (sideCounter texts) m).insertionSort
      (· ≤ ·))).wordIndex.length ≤ m + 4 := by
  have hnd := sortTokens_nodup _ (tokenListOf_nodup (sideCounter texts) m)
  have hsingle : ∀ t ∈ (tokenListOf (sideCounter texts) m).insertionSort (· ≤ ·),
      splitWs t = [t] := fun t ht =>
    tokenListOf_single_piece texts m t
      ((List.perm_insertionSort (· ≤ ·) (tokenListOf (sideCounter texts) m)).mem_iff.mp ht)
  have h1 := fit_wordIndex_length _ hnd hsingle
  have h2 : ((tokenListOf (sideCounter texts) m).insertionSort (· ≤ ·)).length =
      (tokenListOf (sideCounter texts) m).length :=
    (List.perm_insertionSort (· ≤ ·) (tokenListOf (sideCounter texts) m)).length_eq
  have h3 := tokenListOf_length (sideCounter texts) m
  omega

/-- Claim C7: every vocabulary produced by `_create_tokenizers` has at most
`max_vocab_size` plus the number of reserved tokens entries, and the
vectorization stage never mutates it. -/
theorem vocabSizeBound :
    ∀ (corpus : List (PyStr × PyStr)) (m : Nat) (encT decT : TokenizerModel),
      createTokenizers corpus m = .ok (encT, decT) → vocabSizeClaim m encT decT := by
  intro corpus m encT decT h
  unfold createTokenizers createTokenizersWith at h
  by_cases hc : corpus = []
  · rw [if_pos hc] at h
    exact absurd h (by simp)
  · rw [if_neg hc] at h
    simp only [Except.ok.injEq, Prod.mk.injEq] at h
    obtain ⟨he, hd⟩ := h
    refine ⟨?_, ?_, fun pair => rfl⟩
    · rw [← he]
      exact side_size_bound (corpus.map Prod.fst) m
    · rw [← hd]
      exact side_size_bound (corpus.map Prod.snd) m

/-- Witness for `vocabSizeBound` on a one-pair corpus with `max_vocab_size`
2. -/
theorem vocabSizeBound_witness :
    vocabSizeClaim 2
      ⟨[(oovToken, 1), (endToken, 2), (startToken, 3), (['a'], 4)]⟩
      ⟨[(oovToken, 1), (endToken, 2), (startToken, 3), (['b'], 4)]⟩ :=
  vocabSizeBound [(['a'], ['b'])] 2 _ _ (by decide)
